import Mathlib

/-!
Shallow embedding of the transcript-correction core of the AutoVerse
repository (src/core/correction_window_logic.py, src/core/undo_redo.py,
src/core/audio_processor.py) together with proofs settling the claims
about it.

Modelling conventions:
* Python strings are modelled as `List Char` (`Str`).
* Python floats (seconds values) are modelled as exact rationals `ℚ`;
  the code only ever adds, divides by constants, floors and compares.
* Python dicts used as records become Lean structures; the speaker map
  dict becomes an association list; Python sets become `Finset`.
* `int(x)` on a nonnegative float is `Int.floor`; `//` and `%` on
  nonnegative floats are floor-division and its remainder.
* uuid-based id generation is modelled by an explicit id parameter
  (callers of `addSegment`) or an index counter (`parseTranscriptionLines`);
  no claim depends on the actual id text.
-/

abbrev Str := List Char

def str (s : String) : Str := s.data

/-- Sentinel for "no speaker" (utils/constants.py, NO_SPEAKER_LABEL). -/
def noSpeakerLabel : Str := str "SPEAKER_NONE_INTERNAL"

/-- Placeholder text for an empty segment (utils/constants.py,
EMPTY_SEGMENT_PLACEHOLDER). -/
def emptyPlaceholder : Str := str "[Double-click to edit text]"

/-- ASCII whitespace as recognised by Python's `str.strip` and `\s`
(the repository only ever handles ASCII transcript lines). -/
def pyIsSpace (c : Char) : Bool :=
  c = ' ' || c = '\t' || c = '\n' || c = '\x0d' || c = '\x0b' || c = '\x0c'

/-- Python `str.strip()`: drop whitespace from both ends. -/
def pyStrip (s : Str) : Str :=
  ((s.dropWhile pyIsSpace).reverse.dropWhile pyIsSpace).reverse

/-- Python `str.split(sep)` for a one-character separator (no maxsplit):
splits at every occurrence, yielding `n+1` pieces for `n` separators. -/
def pySplit (sep : Char) : Str → List Str
  | [] => [[]]
  | c :: cs =>
    if c = sep then [] :: pySplit sep cs
    else
      match pySplit sep cs with
      | t :: ts => (c :: t) :: ts
      | [] => [[c]]

def isDigitCh (c : Char) : Bool := '0' ≤ c && c ≤ '9'

def digitVal (c : Char) : ℕ := c.toNat - 48

/-- Value of a nonempty all-ASCII-digit string, else `none`. -/
def digitsVal (s : Str) : Option ℕ :=
  if s = [] then none
  else if s.all isDigitCh then some (s.foldl (fun a c => 10 * a + digitVal c) 0)
  else none

/-- Python `int(str)`: optional surrounding whitespace, optional sign,
then decimal digits.  (Python additionally accepts underscores between
digits and non-ASCII decimal digits; every string this repository feeds
to `int` is captured by an ASCII `\d` regex group, where the two
coincide.) -/
def pyIntCore : Str → Option ℤ
  | [] => none
  | c :: ds =>
    if c = '+' then (digitsVal ds).map Int.ofNat
    else if c = '-' then (digitsVal ds).map fun n => -(n : ℤ)
    else (digitsVal (c :: ds)).map Int.ofNat

def pyInt (s : Str) : Option ℤ := pyIntCore (pyStrip s)

/-- One transcript segment (the dict built by
`SegmentManager.parse_transcription_lines` et al.).  The two tag-id
fields are derived from `id` at creation and never consulted by the
core logic; they ride along for fidelity. -/
structure Segment where
  id : Str
  start_time : ℚ
  end_time : Option ℚ
  speaker_raw : Str
  text : Str
  text_tag_id : Str
  timestamp_tag_id : Str
  has_timestamps : Bool
  has_explicit_end_time : Bool
deriving DecidableEq, Repr

/-- `SegmentManager.get_segment_by_id`. -/
def getSegmentById (sid : Str) (segs : List Segment) : Option Segment :=
  segs.find? (fun s => s.id = sid)

/-- `SegmentManager.get_segment_index` (−1 when absent). -/
def getSegmentIndex (sid : Str) (segs : List Segment) : ℤ :=
  match segs.findIdx? (fun s => s.id = sid) with
  | some i => (i : ℤ)
  | none => -1

/-- Text-join rule of `SegmentManager.merge_segment_upwards` (lines
186–197): placeholder counts as empty, a single space only when both
sides are non-empty, empty result becomes the placeholder. -/
def mergeUpJoin (prevText currText : Str) : Str :=
  let p := if prevText = emptyPlaceholder then [] else prevText
  let c := if currText = emptyPlaceholder then [] else currText
  let sep : Str := if p ≠ [] ∧ c ≠ [] then [' '] else []
  let merged := p ++ sep ++ c
  if merged = [] then emptyPlaceholder else merged

/-- `SegmentManager.merge_segment_upwards`: the previous segment absorbs
the given one; end-time fields are inherited only when the absorbed
segment had an explicit, non-null end time, otherwise they are cleared. -/
def mergeSegmentUpwards (sid : Str) (segs : List Segment) :
    Bool × List Segment :=
  let index := getSegmentIndex sid segs
  if index ≤ 0 then (false, segs)
  else
    match segs.get? (index.toNat - 1), segs.get? index.toNat with
    | some prev, some cur =>
      let inherit := cur.has_explicit_end_time && cur.end_time.isSome
      let prev' := { prev with
        text := mergeUpJoin prev.text cur.text,
        end_time := if inherit then cur.end_time else none,
        has_explicit_end_time := inherit }
      (true, (segs.set (index.toNat - 1) prev').eraseIdx index.toNat)
    | _, _ => (false, segs)

/-- Text-join rule inside `SegmentManager.merge_multiple_segments`
(lines 217–225); textually the same computation as in
`merge_segment_upwards`. -/
def mergeMultiJoin (targetText mergeText : Str) : Str :=
  let t := if targetText = emptyPlaceholder then [] else targetText
  let m := if mergeText = emptyPlaceholder then [] else mergeText
  let sep : Str := if t ≠ [] ∧ m ≠ [] then [' '] else []
  let merged := t ++ sep ++ m
  if merged = [] then emptyPlaceholder else merged

/-- One absorption step of `merge_multiple_segments` (lines 217–230):
the target's end time is overwritten only when the absorbed segment's
end time is non-null, and the explicit flag is only ever raised, never
cleared. -/
def mergeStep (target mseg : Segment) : Segment :=
  { target with
    text := mergeMultiJoin target.text mseg.text,
    end_time := if mseg.end_time.isSome then mseg.end_time else target.end_time,
    has_explicit_end_time :=
      if mseg.end_time.isSome && mseg.has_explicit_end_time then true
      else target.has_explicit_end_time }

/-- `id_to_index` dict comprehension followed by `.get(id, inf)`: the
index of the (last) segment with this id, `none` acting as infinity. -/
def idToIndexKey (segs : List Segment) (sid : Str) : Option ℕ :=
  (segs.enum.filterMap fun p => if p.2.id = sid then some p.1 else none).getLast?

/-- Order on sort keys: any finite index precedes the missing-id key. -/
def keyLE : Option ℕ → Option ℕ → Bool
  | some x, some y => x ≤ y
  | some _, none => true
  | none, some _ => false
  | none, none => true

def sortIns (key : Str → Option ℕ) (a : Str) : List Str → List Str
  | [] => [a]
  | b :: bs => if keyLE (key a) (key b) then a :: b :: bs else b :: sortIns key a bs

/-- Stable sort by key, as Python's `sorted(ids, key=...)`. -/
def sortByKey (key : Str → Option ℕ) : List Str → List Str
  | [] => []
  | a :: rest => sortIns key a (sortByKey key rest)

/-- The `for i in range(1, len(sorted_ids))` loop of
`merge_multiple_segments`: `tIdx` is the position of the target dict
(the Python code holds an alias to it), `rem` accumulates
`ids_to_remove`.  Missing ids are skipped. -/
def mergeLoop (tIdx : ℕ) (mids : List Str) (segs : List Segment)
    (rem : List Str) : List Segment × List Str :=
  match mids with
  | [] => (segs, rem)
  | mid :: ms =>
    match getSegmentById mid segs with
    | none => mergeLoop tIdx ms segs rem
    | some mseg =>
      match segs.get? tIdx with
      | some target => mergeLoop tIdx ms (segs.set tIdx (mergeStep target mseg)) (rem ++ [mid])
      | none => mergeLoop tIdx ms segs (rem ++ [mid])

/-- `SegmentManager.merge_multiple_segments` (lines 205–232).  Returns
the Python return value together with the new segment list. -/
def mergeMultipleSegments (ids : List Str) (segs : List Segment) :
    Option Str × List Segment :=
  if ids.length < 2 then (none, segs)
  else
    match sortByKey (idToIndexKey segs) ids with
    | [] => (none, segs)
    | targetId :: rest =>
      match segs.findIdx? (fun s => s.id = targetId) with
      | none => (none, segs)
      | some tIdx =>
        let res := mergeLoop tIdx rest segs []
        (some targetId, res.1.filter (fun s => decide (s.id ∉ res.2)))

/-- The keyword arguments accepted by `SegmentManager.add_segment`
(`segment_data.get(..., default)`); an absent key is `none`. -/
structure SegmentData where
  text : Option Str := none
  speaker_raw : Option Str := none
  start_time : Option ℚ := none
  end_time : Option ℚ := none
  has_timestamps : Option Bool := none
  has_explicit_end_time : Option Bool := none
deriving DecidableEq, Repr

/-- The `final_segment_data` dict built by `add_segment` for a fresh id. -/
def mkAddedSegment (newId : Str) (d : SegmentData) : Segment :=
  { id := newId,
    text := d.text.getD emptyPlaceholder,
    speaker_raw := d.speaker_raw.getD noSpeakerLabel,
    start_time := d.start_time.getD 0,
    end_time := d.end_time,
    has_timestamps := d.has_timestamps.getD false,
    has_explicit_end_time := d.has_explicit_end_time.getD false,
    text_tag_id := str "text_content_" ++ newId,
    timestamp_tag_id := str "ts_content_" ++ newId }

/-- Python `list.insert(i, a)`: negative indices count from the end
(clamped at 0), large indices append. -/
def pyInsert (i : ℤ) (a : Segment) (l : List Segment) : List Segment :=
  let j : ℕ := if i < 0 then ((l.length : ℤ) + i).toNat else min i.toNat l.length
  l.insertIdx j a

/-- `SegmentManager.add_segment` (lines 143–160).  The generated uuid id
is passed in as `newId`.  Note the Python truthiness test
`if reference_segment_id:`: an empty-string reference behaves like
`None` (append at the end). -/
def addSegment (newId : Str) (d : SegmentData) (ref : Option Str)
    (position : Str) (segs : List Segment) : Str × List Segment :=
  let fin := mkAddedSegment newId d
  let insertAt : ℤ :=
    match ref with
    | some rid =>
      if rid = [] then (segs.length : ℤ)
      else
        let refIndex := getSegmentIndex rid segs
        if position = str "below" then refIndex + 1 else refIndex
    | none => (segs.length : ℤ)
  (newId, pyInsert insertAt fin segs)

/-! ### Basic lookup lemmas -/

theorem getById_cons (x : Str) (s : Segment) (l : List Segment) :
    getSegmentById x (s :: l) =
      if s.id = x then some s else getSegmentById x l := by
  by_cases h : s.id = x <;> simp [getSegmentById, List.find?_cons, h]

theorem getById_some_id (x : Str) (segs : List Segment) (A : Segment)
    (h : getSegmentById x segs = some A) : A.id = x := by
  have := List.find?_some h
  exact of_decide_eq_true this

theorem getById_find_get (x : Str) :
    ∀ (segs : List Segment) (A : Segment), getSegmentById x segs = some A →
    ∃ i, segs.findIdx? (fun s => s.id = x) = some i ∧ segs.get? i = some A := by
  intro segs
  induction segs with
  | nil => intro A h; simp [getSegmentById] at h
  | cons s l ih =>
    intro A h
    rw [getById_cons] at h
    by_cases hs : s.id = x
    · refine ⟨0, ?_, ?_⟩
      · simp [List.findIdx?_cons, hs]
      · simp [hs] at h; simp [h]
    · simp [hs] at h
      obtain ⟨i, hfi, hgi⟩ := ih A h
      refine ⟨i + 1, ?_, ?_⟩
      · simp [List.findIdx?_cons, hs, hfi]
      · simpa using hgi
  
theorem getById_none_iff (x : Str) (segs : List Segment) :
    getSegmentById x segs = none ↔ ∀ s ∈ segs, s.id ≠ x := by
  unfold getSegmentById
  rw [List.find?_eq_none]
  constructor
  · intro h s hs; have := h s hs; simpa using this
  · intro h s hs; simpa using h s hs

theorem findIdx?_none_iff_getById_none (x : Str) (segs : List Segment) :
    segs.findIdx? (fun s => s.id = x) = none ↔ getSegmentById x segs = none := by
  induction segs with
  | nil => simp [getSegmentById]
  | cons s l ih =>
    rw [getById_cons]
    by_cases hs : s.id = x <;> simp [List.findIdx?_cons, hs, ih]

theorem findIdx?_get (p : Segment → Bool) :
    ∀ (segs : List Segment) (i : ℕ), segs.findIdx? p = some i →
    ∃ v, segs.get? i = some v ∧ p v = true := by
  intro segs
  induction segs with
  | nil => intro i h; simp [List.findIdx?] at h
  | cons s l ih =>
    intro i h
    by_cases hs : p s
    · simp [List.findIdx?_cons, hs] at h
      subst h; exact ⟨s, rfl, hs⟩
    · simp [List.findIdx?_cons, hs] at h
      obtain ⟨j, hj, rfl⟩ := h
      obtain ⟨v, hv, hpv⟩ := ih j hj
      exact ⟨v, by simpa using hv, hpv⟩

theorem set_get_self : ∀ (l : List Segment) (i : ℕ) (a : Segment),
    l.get? i = some a → l.set i a = l := by
  intro l
  induction l with
  | nil => intro i a h; simp at h
  | cons s t ih =>
    intro i a h
    cases i with
    | zero =>
      have hsa : s = a := by simpa using h
      subst hsa; rfl
    | succ j =>
      have h' : t.get? j = some a := h
      show s :: t.set j a = s :: t
      rw [ih j a h']

theorem get?_set_self : ∀ (l : List Segment) (i : ℕ) (w : Segment),
    i < l.length → (l.set i w).get? i = some w := by
  intro l
  induction l with
  | nil => intro i w h; simp at h
  | cons s t ih =>
    intro i w h
    cases i with
    | zero => rfl
    | succ j => simpa using ih j w (by simpa using h)

theorem getById_set_ne (x : Str) :
    ∀ (l : List Segment) (i : ℕ) (v w : Segment),
    l.get? i = some v → v.id ≠ x → w.id ≠ x →
    getSegmentById x (l.set i w) = getSegmentById x l := by
  intro l
  induction l with
  | nil => intro i v w h; simp at h
  | cons s t ih =>
    intro i v w hget hv hw
    cases i with
    | zero =>
      simp at hget; subst hget
      rw [List.set]
      rw [getById_cons, getById_cons, if_neg hv, if_neg hw]
    | succ j =>
      have hget' : t.get? j = some v := hget
      rw [List.set]
      rw [getById_cons, getById_cons]
      by_cases hs : s.id = x
      · simp [hs]
      · simp only [hs, if_false]
        exact ih j v w hget' hv hw

theorem getById_set_match (x : Str) :
    ∀ (l : List Segment) (i : ℕ) (w : Segment),
    l.findIdx? (fun s => s.id = x) = some i → w.id = x →
    getSegmentById x (l.set i w) = some w := by
  intro l
  induction l with
  | nil => intro i w h; simp [List.findIdx?] at h
  | cons s t ih =>
    intro i w hfi hw
    by_cases hs : s.id = x
    · simp [List.findIdx?_cons, hs] at hfi
      subst hfi
      rw [List.set, getById_cons, if_pos hw]
    · simp [List.findIdx?_cons, hs] at hfi
      obtain ⟨j, hj, rfl⟩ := hfi
      rw [List.set, getById_cons, if_neg hs]
      exact ih j w hj hw

theorem getById_filter_mem (x : Str) (rem : List Str) (hx : x ∈ rem) :
    ∀ l : List Segment,
    getSegmentById x (l.filter (fun s => decide (s.id ∉ rem))) = none := by
  intro l
  rw [getById_none_iff]
  intro s hs hid
  have hmem := List.of_mem_filter hs
  rw [hid] at hmem
  exact (of_decide_eq_true hmem) hx

theorem getById_filter_not_mem (x : Str) (rem : List Str) (hx : x ∉ rem) :
    ∀ l : List Segment,
    getSegmentById x (l.filter (fun s => decide (s.id ∉ rem))) =
      getSegmentById x l := by
  intro l
  induction l with
  | nil => rfl
  | cons s t ih =>
    rw [List.filter_cons]
    by_cases hs : s.id = x
    · have hkeep : decide (s.id ∉ rem) = true := by
        subst hs; exact decide_eq_true hx
      rw [if_pos hkeep, getById_cons, getById_cons, if_pos hs, if_pos hs]
    · by_cases hkeep : decide (s.id ∉ rem) = true
      · rw [if_pos hkeep, getById_cons, getById_cons, if_neg hs, if_neg hs]
        exact ih
      · rw [if_neg hkeep, getById_cons, if_neg hs]
        exact ih

/-! ### Sort-key lemmas -/

theorem keyLE_refl (a : Option ℕ) : keyLE a a = true := by
  cases a <;> simp [keyLE]

theorem keyLE_total (a b : Option ℕ) (h : keyLE a b = false) : keyLE b a = true := by
  cases a <;> cases b <;> simp_all [keyLE] <;> omega

theorem keyLE_trans (a b c : Option ℕ) (hab : keyLE a b = true)
    (hbc : keyLE b c = true) : keyLE a c = true := by
  cases a <;> cases b <;> cases c <;> simp_all [keyLE] <;> omega

theorem keyLE_none_right (a : Option ℕ) : keyLE a none = true := by
  cases a <;> simp [keyLE]

theorem sortIns_perm (key : Str → Option ℕ) (a : Str) :
    ∀ l : List Str, List.Perm (sortIns key a l) (a :: l) := by
  intro l
  induction l with
  | nil => simp [sortIns]
  | cons b bs ih =>
    rw [sortIns]
    by_cases h : keyLE (key a) (key b) = true
    · rw [if_pos h]
    · rw [if_neg h]
      exact (ih.cons b).trans (List.Perm.swap a b bs)

theorem sortByKey_perm (key : Str → Option ℕ) :
    ∀ l : List Str, List.Perm (sortByKey key l) l := by
  intro l
  induction l with
  | nil => simp [sortByKey]
  | cons a rest ih =>
    rw [sortByKey]
    exact (sortIns_perm key a (sortByKey key rest)).trans (ih.cons a)

theorem sortIns_shape (key : Str → Option ℕ) (a : Str) :
    ∀ (l : List Str) (h : Str) (t : List Str), sortIns key a l = h :: t →
    (h = a ∧ t = l ∧
      (l = [] ∨ ∃ b l'', l = b :: l'' ∧ keyLE (key a) (key b) = true)) ∨
    (∃ l', l = h :: l' ∧ t = sortIns key a l' ∧
      keyLE (key a) (key h) = false) := by
  intro l
  cases l with
  | nil =>
    intro h t he
    rw [sortIns] at he
    obtain ⟨rfl, rfl⟩ : a = h ∧ ([] : List Str) = t := by
      constructor <;> injection he <;> simp_all
    exact Or.inl ⟨rfl, rfl, Or.inl rfl⟩
  | cons b bs =>
    intro h t he
    rw [sortIns] at he
    by_cases hk : keyLE (key a) (key b) = true
    · rw [if_pos hk] at he
      obtain ⟨rfl, rfl⟩ : a = h ∧ b :: bs = t := by
        constructor <;> injection he <;> simp_all
      exact Or.inl ⟨rfl, rfl, Or.inr ⟨b, bs, rfl, hk⟩⟩
    · rw [if_neg hk] at he
      obtain ⟨rfl, rfl⟩ : b = h ∧ sortIns key a bs = t := by
        constructor <;> injection he <;> simp_all
      exact Or.inr ⟨bs, rfl, rfl, by simpa using hk⟩

theorem sortByKey_head_min (key : Str → Option ℕ) :
    ∀ (l : List Str) (h : Str) (t : List Str), sortByKey key l = h :: t →
    ∀ y ∈ l, keyLE (key h) (key y) = true := by
  intro l
  induction l with
  | nil => intro h t he; simp [sortByKey] at he
  | cons x rest ih =>
    intro h t he y hy
    rw [sortByKey] at he
    rcases sortIns_shape key x (sortByKey key rest) h t he with
      ⟨rfl, rfl, hcase⟩ | ⟨l', hl', ht, hk⟩
    · rcases List.mem_cons.mp hy with rfl | hyr
      · exact keyLE_refl _
      · rcases hcase with hnil | ⟨b, l'', hbl, hkb⟩
        · have hre : rest = [] :=
            List.Perm.eq_nil ((sortByKey_perm key rest).symm.trans (by rw [hnil]))
          rw [hre] at hyr; simp at hyr
        · have hmin := ih b l'' hbl y hyr
          exact keyLE_trans _ _ _ hkb hmin
    · rcases List.mem_cons.mp hy with rfl | hyr
      · exact keyLE_total _ _ hk
      · exact ih h l' hl' y hyr

theorem sortByKey_of_chain (key : Str → Option ℕ) :
    ∀ l : List Str,
    List.Chain' (fun y z => keyLE (key y) (key z) = true) l →
    sortByKey key l = l := by
  intro l
  induction l with
  | nil => intro _; rfl
  | cons a rest ih =>
    intro hch
    rw [sortByKey, ih hch.tail]
    cases rest with
    | nil => rfl
    | cons b bs =>
      have hab : keyLE (key a) (key b) = true := hch.rel_head
      rw [sortIns, if_pos hab]

/-! ### Lemmas about the `id_to_index` key -/

theorem idKeyAux_nil (sid : Str) :
    ∀ (segs : List Segment) (n : ℕ),
    ((List.enumFrom n segs).filterMap fun p =>
        if p.2.id = sid then some p.1 else none) = [] ↔
    ∀ s ∈ segs, s.id ≠ sid := by
  intro segs
  induction segs with
  | nil => intro n; simp
  | cons s t ih =>
    intro n
    rw [List.enumFrom]
    by_cases hs : s.id = sid
    · simp only [List.filterMap_cons, hs, if_pos rfl]
      constructor
      · intro h; cases h
      · intro h; exact absurd hs (h s (List.mem_cons_self s t))
    · simp only [List.filterMap_cons, if_neg hs]
      rw [ih (n + 1)]
      constructor
      · intro h x hx
        rcases List.mem_cons.mp hx with rfl | hxt
        · exact hs
        · exact h x hxt
      · intro h x hx; exact h x (List.mem_cons_of_mem s hx)

theorem idKey_none_iff (sid : Str) (segs : List Segment) :
    idToIndexKey segs sid = none ↔ getSegmentById sid segs = none := by
  rw [idToIndexKey, List.getLast?_eq_none_iff, getById_none_iff]
  exact idKeyAux_nil sid segs 0

theorem idKeyAux_single (a : Segment) :
    ∀ (segs : List Segment) (i n : ℕ),
    (segs.map Segment.id).Nodup → segs.get? i = some a →
    ((List.enumFrom n segs).filterMap fun p =>
        if p.2.id = a.id then some p.1 else none) = [n + i] := by
  intro segs
  induction segs with
  | nil => intro i n _ h; simp at h
  | cons s t ih =>
    intro i n hnd hget
    have hnd' : (s.id :: t.map Segment.id).Nodup := by simpa using hnd
    have hnds : s.id ∉ t.map Segment.id := (List.nodup_cons.mp hnd').1
    have hndt : (t.map Segment.id).Nodup := (List.nodup_cons.mp hnd').2
    rw [List.enumFrom]
    cases i with
    | zero =>
      have hsa : s = a := by simpa using hget
      subst hsa
      have hnil : ((List.enumFrom (n + 1) t).filterMap fun p =>
          if p.2.id = s.id then some p.1 else none) = [] := by
        rw [idKeyAux_nil]
        intro x hx hxid
        exact hnds (by rw [← hxid]; exact List.mem_map_of_mem Segment.id hx)
      rw [List.filterMap_cons]
      simp [hnil]
    | succ j =>
      have hget' : t.get? j = some a := hget
      have hamem : a ∈ t := List.get?_mem hget'
      have hsa : s.id ≠ a.id := by
        intro he
        exact hnds (he ▸ List.mem_map_of_mem Segment.id hamem)
      rw [List.filterMap_cons]
      simp only [if_neg hsa]
      rw [ih j (n + 1) hndt hget']
      congr 1
      omega

theorem idKey_of_get (segs : List Segment) (i : ℕ) (a : Segment)
    (hnd : (segs.map Segment.id).Nodup) (hget : segs.get? i = some a) :
    idToIndexKey segs a.id = some i := by
  rw [idToIndexKey]
  show ((List.enumFrom 0 segs).filterMap fun p =>
      if p.2.id = a.id then some p.1 else none).getLast? = some i
  rw [idKeyAux_single a segs i 0 hnd hget]
  simp

/-! ### Lemmas about the absorption loop -/

theorem mergeLoop_invalid (tIdx : ℕ) :
    ∀ (mids : List Str) (segs : List Segment) (rem : List Str),
    (∀ mid ∈ mids, getSegmentById mid segs = none) →
    mergeLoop tIdx mids segs rem = (segs, rem) := by
  intro mids
  induction mids with
  | nil => intro segs rem _; rfl
  | cons mid ms ih =>
    intro segs rem h
    rw [mergeLoop, h mid (List.mem_cons_self mid ms)]
    exact ih segs rem fun y hy => h y (List.mem_cons_of_mem mid hy)

theorem get?_some_lt : ∀ (l : List Segment) (i : ℕ) (v : Segment),
    l.get? i = some v → i < l.length := by
  intro l
  induction l with
  | nil => intro i v h; simp at h
  | cons s t ih =>
    intro i v h
    cases i with
    | zero => simp
    | succ j => exact Nat.succ_lt_succ (ih j v h)

theorem mergeStep_id (t m : Segment) : (mergeStep t m).id = t.id := rfl

theorem foldl_mergeStep_id (a : Segment) :
    ∀ l : List Segment, (l.foldl mergeStep a).id = a.id := by
  intro l
  induction l generalizing a with
  | nil => rfl
  | cons m ms ih => exact (ih (mergeStep a m)).trans rfl

theorem mergeLoop_fold (segs : List Segment) (tIdx : ℕ) (x : Str) (v : Segment)
    (hfix : segs.findIdx? (fun s => s.id = x) = some tIdx)
    (hv : segs.get? tIdx = some v) (hvid : v.id = x) :
    ∀ (mids : List Str) (acc : Segment) (rem : List Str),
    acc.id = x →
    (∀ mid ∈ mids, mid ≠ x ∧ getSegmentById mid segs ≠ none) →
    mergeLoop tIdx mids (segs.set tIdx acc) rem =
      (segs.set tIdx
        ((mids.filterMap fun y => getSegmentById y segs).foldl mergeStep acc),
       rem ++ mids) := by
  intro mids
  induction mids with
  | nil => intro acc rem _ _; simp [mergeLoop]
  | cons mid ms ih =>
    intro acc rem hacc hmids
    obtain ⟨hmx, hmv⟩ := hmids mid (List.mem_cons_self mid ms)
    obtain ⟨m, hm⟩ := Option.ne_none_iff_exists'.mp hmv
    have hset : getSegmentById mid (segs.set tIdx acc) = some m := by
      rw [getById_set_ne mid segs tIdx v acc hv (by rw [hvid]; exact hmx.symm)
        (by rw [hacc]; exact hmx.symm)]
      exact hm
    have hgetacc : (segs.set tIdx acc).get? tIdx = some acc :=
      get?_set_self segs tIdx acc (get?_some_lt segs tIdx v hv)
    simp only [mergeLoop, hset, hgetacc, List.set_set]
    rw [ih (mergeStep acc m) (rem ++ [mid]) (by rw [mergeStep_id]; exact hacc)
      (fun y hy => hmids y (List.mem_cons_of_mem mid hy))]
    simp only [List.filterMap_cons, hm]
    simp

/-! ### Concrete segments used by counterexamples and witnesses -/

def segA : Segment :=
  { id := str "a", start_time := 1, end_time := some 2,
    speaker_raw := noSpeakerLabel, text := str "x",
    text_tag_id := str "text_content_a", timestamp_tag_id := str "ts_content_a",
    has_timestamps := true, has_explicit_end_time := true }

def segB : Segment :=
  { id := str "b", start_time := 3, end_time := none,
    speaker_raw := noSpeakerLabel, text := str "y",
    text_tag_id := str "text_content_b", timestamp_tag_id := str "ts_content_b",
    has_timestamps := true, has_explicit_end_time := false }

/-- Claim C2 counterexample: in a store `[segA, segB]` where the target
`segA` has an explicit end time (2) and the absorbed `segB` has no end
time at all, `merge_multiple_segments` keeps the target's explicit end
time, whereas `merge_segment_upwards` — whose rule the claim says is
shared — clears it.  The text join agrees, the end-time inheritance does
not. -/
theorem C2_counterexample :
    ((mergeMultipleSegments [str "a", str "b"] [segA, segB]).2.map
        (fun s => (s.text, s.end_time, s.has_explicit_end_time)) =
      [(str "x y", some 2, true)]) ∧
    ((mergeSegmentUpwards (str "b") [segA, segB]).2.map
        (fun s => (s.text, s.end_time, s.has_explicit_end_time)) =
      [(str "x y", none, false)]) ∧
    (some (2 : ℚ), true) ≠ ((none : Option ℚ), false) := by
  refine ⟨by decide, by decide, by decide⟩

/-- Claim C2 (amended): for every store with unique segment ids and
every list of at least two distinct, present segment ids given in store
order, `merge_multiple_segments` absorbs each later segment into the
earliest one; the text join is exactly `merge_segment_upwards`' rule,
but the end-time rule differs from `merge_segment_upwards`: the
absorbed segment's end time overwrites the target's only when it is
non-null and the explicit flag is only raised (never cleared), while a
null end time on the absorbed segment leaves the target's end fields
unchanged. -/
theorem C2_merge_multiple_end_rule
    (segs : List Segment) (x : Str) (xs : List Str)
    (hnd : (segs.map Segment.id).Nodup)
    (hxs : xs ≠ [])
    (hvalid : ∀ y ∈ x :: xs, getSegmentById y segs ≠ none)
    (hdist : (x :: xs).Nodup)
    (hsorted : (x :: xs).Chain'
      (fun y z => keyLE (idToIndexKey segs y) (idToIndexKey segs z) = true)) :
    (∀ t c, mergeMultiJoin t c = mergeUpJoin t c) ∧
    (∀ t m, (mergeStep t m).text = mergeUpJoin t.text m.text ∧
      (mergeStep t m).end_time =
        (if m.end_time.isSome then m.end_time else t.end_time) ∧
      (mergeStep t m).has_explicit_end_time =
        (t.has_explicit_end_time || (m.end_time.isSome && m.has_explicit_end_time))) ∧
    (mergeMultipleSegments (x :: xs) segs).1 = some x ∧
    (∀ A, getSegmentById x segs = some A →
      getSegmentById x (mergeMultipleSegments (x :: xs) segs).2 =
        some ((xs.filterMap fun y => getSegmentById y segs).foldl mergeStep A)) ∧
    ∀ y ∈ xs, getSegmentById y (mergeMultipleSegments (x :: xs) segs).2 = none := by
  obtain ⟨A0, hA0⟩ := Option.ne_none_iff_exists'.mp (hvalid x (List.mem_cons_self x xs))
  obtain ⟨tIdx, hfix, hget⟩ := getById_find_get x segs A0 hA0
  have hA0id : A0.id = x := getById_some_id x segs A0 hA0
  have hxnotin : x ∉ xs := (List.nodup_cons.mp hdist).1
  have hmids : ∀ mid ∈ xs, mid ≠ x ∧ getSegmentById mid segs ≠ none := by
    intro mid hm
    exact ⟨fun he => hxnotin (he ▸ hm), hvalid mid (List.mem_cons_of_mem x hm)⟩
  have hlen : ¬ (x :: xs).length < 2 := by
    cases xs with
    | nil => exact absurd rfl hxs
    | cons b bs => simp
  have hsort : sortByKey (idToIndexKey segs) (x :: xs) = x :: xs :=
    sortByKey_of_chain _ _ hsorted
  have hloop : mergeLoop tIdx xs segs [] =
      (segs.set tIdx
        ((xs.filterMap fun y => getSegmentById y segs).foldl mergeStep A0), xs) := by
    have h := mergeLoop_fold segs tIdx x A0 hfix hget hA0id xs A0 [] hA0id hmids
    rwa [set_get_self segs tIdx A0 hget] at h
  have hmm : mergeMultipleSegments (x :: xs) segs =
      (some x,
       (segs.set tIdx
         ((xs.filterMap fun y => getSegmentById y segs).foldl mergeStep A0)).filter
         (fun s => decide (s.id ∉ xs))) := by
    simp only [mergeMultipleSegments, if_neg hlen, hsort, hfix, hloop]
  refine ⟨fun t c => rfl, ?_, ?_, ?_, ?_⟩
  · intro t m
    refine ⟨rfl, rfl, ?_⟩
    cases hb : m.end_time.isSome && m.has_explicit_end_time <;>
      cases ht : t.has_explicit_end_time <;> simp [mergeStep, hb, ht]
  · rw [hmm]
  · intro A hA
    have hAeq : A = A0 := by rw [hA0] at hA; exact (Option.some.inj hA).symm
    subst hAeq
    rw [hmm]
    show getSegmentById x (List.filter _ _) = _
    rw [getById_filter_not_mem x xs hxnotin]
    exact getById_set_match x segs tIdx _ hfix
      (by rw [foldl_mergeStep_id]; exact hA0id)
  · intro y hy
    rw [hmm]
    exact getById_filter_mem y xs hy _

/-- Claim C2 witness: the amended rule evaluated on the concrete store
`[segA, segB]`. -/
theorem C2_merge_multiple_end_rule_witness :
    (mergeMultipleSegments [str "a", str "b"] [segA, segB]).1 = some (str "a") ∧
    getSegmentById (str "a")
        (mergeMultipleSegments [str "a", str "b"] [segA, segB]).2 =
      some (([str "b"].filterMap
        (fun y => getSegmentById y [segA, segB])).foldl mergeStep segA) ∧
    getSegmentById (str "b")
        (mergeMultipleSegments [str "a", str "b"] [segA, segB]).2 = none := by
  have h := C2_merge_multiple_end_rule [segA, segB] (str "a") [str "b"]
    (by decide) (by decide) (by decide) (by decide)
    (by rw [List.chain'_cons]; exact ⟨by decide, List.chain'_singleton _⟩)
  exact ⟨h.2.2.1, h.2.2.2.1 segA (by decide), h.2.2.2.2 (str "b") (by decide)⟩

/-- Claim C3 counterexample: the store holds only `segA`; of the two ids
passed, only `"a"` identifies a segment, yet the call returns
`some "a"`, not `None` as the claim requires. -/
theorem C3_counterexample :
    (mergeMultipleSegments [str "a", str "zz"] [segA]).1 = some (str "a") ∧
    getSegmentById (str "zz") [segA] = none := by
  refine ⟨by decide, by decide⟩

/-- Claim C3 (amended): `merge_multiple_segments` returns `None` exactly
when fewer than two ids are passed (raw count, valid or not) or when no
passed id identifies a segment; whenever at least one passed id is
valid it returns the earliest valid id — a returned id that is among
those passed, identifies a segment, and whose store index is least
among all valid passed ids — even if it is the only valid one, and in
the single-valid-occurrence case the store is left unchanged. -/
theorem C3_merge_multiple_validity (ids : List Str) (segs : List Segment) :
    (ids.length < 2 → mergeMultipleSegments ids segs = (none, segs)) ∧
    (2 ≤ ids.length →
      ((mergeMultipleSegments ids segs).1 = none ↔
        ∀ sid ∈ ids, getSegmentById sid segs = none)) ∧
    (2 ≤ ids.length → (∃ x ∈ ids, getSegmentById x segs ≠ none) →
      ∃ r i, (mergeMultipleSegments ids segs).1 = some r ∧ r ∈ ids ∧
        getSegmentById r segs ≠ none ∧ idToIndexKey segs r = some i ∧
        ∀ y ∈ ids, ∀ j, idToIndexKey segs y = some j → i ≤ j) ∧
    ∀ x, 2 ≤ ids.length → x ∈ ids →
      ids.countP (fun y => decide (y = x)) = 1 →
      getSegmentById x segs ≠ none →
      (∀ y ∈ ids, y ≠ x → getSegmentById y segs = none) →
      mergeMultipleSegments ids segs = (some x, segs) := by
  refine ⟨?_, ?_, ?_, ?_⟩
  · intro h
    simp only [mergeMultipleSegments, if_pos h]
  · intro h2
    have hnlt : ¬ ids.length < 2 := by omega
    cases hs : sortByKey (idToIndexKey segs) ids with
    | nil =>
      exfalso
      have hperm := sortByKey_perm (idToIndexKey segs) ids
      rw [hs] at hperm
      have := hperm.length_eq
      simp at this
      omega
    | cons targetId rest =>
      have hperm := sortByKey_perm (idToIndexKey segs) ids
      rw [hs] at hperm
      have htmem : targetId ∈ ids := hperm.mem_iff.mp (List.mem_cons_self _ _)
      constructor
      · intro hres sid hsid
        by_contra hval
        obtain ⟨i, hki⟩ : ∃ i, idToIndexKey segs sid = some i := by
          cases hk : idToIndexKey segs sid with
          | none => exact absurd ((idKey_none_iff sid segs).mp hk) hval
          | some i => exact ⟨i, rfl⟩
        cases hfi : segs.findIdx? (fun s => s.id = targetId) with
        | some tIdx =>
          have hsome : (mergeMultipleSegments ids segs).1 = some targetId := by
            simp only [mergeMultipleSegments, if_neg hnlt, hs, hfi]
          rw [hsome] at hres
          cases hres
        | none =>
          have htinv : getSegmentById targetId segs = none :=
            (findIdx?_none_iff_getById_none targetId segs).mp hfi
          have hknone : idToIndexKey segs targetId = none :=
            (idKey_none_iff targetId segs).mpr htinv
          have hmin := sortByKey_head_min (idToIndexKey segs) ids targetId rest hs sid hsid
          rw [hknone, hki] at hmin
          simp [keyLE] at hmin
      · intro hall
        have hfi : segs.findIdx? (fun s => s.id = targetId) = none :=
          (findIdx?_none_iff_getById_none targetId segs).mpr (hall targetId htmem)
        simp only [mergeMultipleSegments, if_neg hnlt, hs, hfi]
  · intro h2 hex
    obtain ⟨x, hxmem, hxval⟩ := hex
    have hnlt : ¬ ids.length < 2 := by omega
    cases hs : sortByKey (idToIndexKey segs) ids with
    | nil =>
      exfalso
      have hperm := sortByKey_perm (idToIndexKey segs) ids
      rw [hs] at hperm
      have := hperm.length_eq
      simp at this
      omega
    | cons targetId rest =>
      have hperm := sortByKey_perm (idToIndexKey segs) ids
      rw [hs] at hperm
      have htmem : targetId ∈ ids := hperm.mem_iff.mp (List.mem_cons_self _ _)
      obtain ⟨jx, hjx⟩ : ∃ j, idToIndexKey segs x = some j := by
        cases hk : idToIndexKey segs x with
        | none => exact absurd ((idKey_none_iff x segs).mp hk) hxval
        | some j => exact ⟨j, rfl⟩
      have hmin := sortByKey_head_min (idToIndexKey segs) ids targetId rest hs
      obtain ⟨i, hti⟩ : ∃ i, idToIndexKey segs targetId = some i := by
        cases hk : idToIndexKey segs targetId with
        | none =>
          have hcontra := hmin x hxmem
          rw [hk, hjx] at hcontra
          simp [keyLE] at hcontra
        | some i => exact ⟨i, rfl⟩
      have htval : getSegmentById targetId segs ≠ none := by
        intro hnone
        rw [(idKey_none_iff targetId segs).mpr hnone] at hti
        cases hti
      obtain ⟨A0, hA0⟩ := Option.ne_none_iff_exists'.mp htval
      obtain ⟨tIdx, hfix, _⟩ := getById_find_get targetId segs A0 hA0
      refine ⟨targetId, i, ?_, htmem, htval, hti, ?_⟩
      · simp only [mergeMultipleSegments, if_neg hnlt, hs, hfix]
      · intro y hy j hj
        have hky := hmin y hy
        rw [hti, hj] at hky
        simpa [keyLE] using hky
  · intro x h2 hxmem hcount hval hothers
    have hnlt : ¬ ids.length < 2 := by omega
    obtain ⟨A0, hA0⟩ := Option.ne_none_iff_exists'.mp hval
    obtain ⟨tIdx, hfix, _⟩ := getById_find_get x segs A0 hA0
    cases hs : sortByKey (idToIndexKey segs) ids with
    | nil =>
      exfalso
      have hperm := sortByKey_perm (idToIndexKey segs) ids
      rw [hs] at hperm
      have := hperm.length_eq
      simp at this
      omega
    | cons targetId rest =>
      have hperm := sortByKey_perm (idToIndexKey segs) ids
      rw [hs] at hperm
      have htmem : targetId ∈ ids := hperm.mem_iff.mp (List.mem_cons_self _ _)
      have htx : targetId = x := by
        by_contra hne
        have hknone : idToIndexKey segs targetId = none :=
          (idKey_none_iff targetId segs).mpr (hothers targetId htmem hne)
        obtain ⟨i, hki⟩ : ∃ i, idToIndexKey segs x = some i := by
          cases hk : idToIndexKey segs x with
          | none => exact absurd ((idKey_none_iff x segs).mp hk) hval
          | some i => exact ⟨i, rfl⟩
        have hmin := sortByKey_head_min (idToIndexKey segs) ids targetId rest hs x hxmem
        rw [hknone, hki] at hmin
        simp [keyLE] at hmin
      subst htx
      have hxrest : targetId ∉ rest := by
        have hcnt := hperm.countP_eq (fun y => decide (y = targetId))
        rw [hcount, List.countP_cons] at hcnt
        have hz : rest.countP (fun y => decide (y = targetId)) = 0 := by
          rw [if_pos (show decide (targetId = targetId) = true from by simp)] at hcnt
          omega
        rw [List.countP_eq_zero] at hz
        intro hmem
        simpa using hz targetId hmem
      have hrest_inv : ∀ y ∈ rest, getSegmentById y segs = none := by
        intro y hy
        have hymem : y ∈ ids := hperm.mem_iff.mp (List.mem_cons_of_mem _ hy)
        have hyne : y ≠ targetId := fun he => hxrest (he ▸ hy)
        exact hothers y hymem hyne
      have hloop := mergeLoop_invalid tIdx rest segs [] hrest_inv
      simp only [mergeMultipleSegments, if_neg hnlt, hs, hfix, hloop]
      rw [List.filter_eq_self.mpr]
      intro a _
      simp

/-- Claim C3 witness: the amended behaviour at concrete inputs — a
single-element call is rejected, an all-invalid call is rejected, a
mixed call with two valid ids and one bogus id returns the earliest
valid id, and a one-valid-id call returns that id with the store
unchanged. -/
theorem C3_merge_multiple_validity_witness :
    mergeMultipleSegments [str "a"] [segA, segB] = (none, [segA, segB]) ∧
    ((mergeMultipleSegments [str "q", str "zz"] [segA, segB]).1 = none ↔
      ∀ sid ∈ [str "q", str "zz"], getSegmentById sid [segA, segB] = none) ∧
    (∃ r i, (mergeMultipleSegments [str "b", str "zz", str "a"]
        [segA, segB]).1 = some r ∧
      r ∈ [str "b", str "zz", str "a"] ∧
      getSegmentById r [segA, segB] ≠ none ∧
      idToIndexKey [segA, segB] r = some i ∧
      ∀ y ∈ [str "b", str "zz", str "a"], ∀ j,
        idToIndexKey [segA, segB] y = some j → i ≤ j) ∧
    (mergeMultipleSegments [str "b", str "zz", str "a"] [segA, segB]).1 =
      some (str "a") ∧
    mergeMultipleSegments [str "b", str "zz"] [segA, segB] =
      (some (str "b"), [segA, segB]) := by
  refine ⟨(C3_merge_multiple_validity [str "a"] [segA, segB]).1 (by decide),
    (C3_merge_multiple_validity [str "q", str "zz"] [segA, segB]).2.1 (by decide),
    (C3_merge_multiple_validity [str "b", str "zz", str "a"]
      [segA, segB]).2.2.1 (by decide) ⟨str "a", by decide, by decide⟩,
    by decide,
    (C3_merge_multiple_validity [str "b", str "zz"] [segA, segB]).2.2.2 (str "b")
      (by decide) (by decide) (by decide) (by decide) ?_⟩
  intro y hy hne
  fin_cases hy
  · exact absurd rfl hne
  · decide

/-- Claim C9: calling `merge_multiple_segments([x, x])` on a store
containing `x` (with ordinary text) merges the segment with itself —
the loop's target alias doubles the text — and then deletes it, yet
returns `x`, which afterwards identifies no live segment. -/
theorem C9_merge_with_itself (segs : List Segment) (x : Str) (A : Segment)
    (hA : getSegmentById x segs = some A)
    (hph : A.text ≠ emptyPlaceholder) (hne : A.text ≠ []) :
    (mergeMultipleSegments [x, x] segs).1 = some x ∧
    getSegmentById x (mergeMultipleSegments [x, x] segs).2 = none ∧
    ∃ tIdx, segs.findIdx? (fun s => s.id = x) = some tIdx ∧
      (mergeLoop tIdx [x] segs []).1 =
        segs.set tIdx { A with text := A.text ++ ' ' :: A.text } := by
  obtain ⟨tIdx, hfix, hget⟩ := getById_find_get x segs A hA
  have hsort : sortByKey (idToIndexKey segs) [x, x] = [x, x] := by
    show sortIns _ x (sortIns _ x (sortByKey _ [])) = [x, x]
    rw [sortByKey, sortIns, sortIns, if_pos (keyLE_refl _)]
  have htext : mergeMultiJoin A.text A.text = A.text ++ ' ' :: A.text := by
    rw [mergeMultiJoin]
    simp only [if_neg hph, if_pos (And.intro hne hne),
      if_neg (show ¬(A.text ++ [' '] ++ A.text = []) from by simp)]
    simp
  have hstep : mergeStep A A = { A with text := A.text ++ ' ' :: A.text } := by
    have hend : (if A.end_time.isSome then A.end_time else A.end_time) =
        A.end_time := ite_self _
    have hhas : (if A.end_time.isSome && A.has_explicit_end_time then true
        else A.has_explicit_end_time) = A.has_explicit_end_time := by
      cases hb : A.end_time.isSome && A.has_explicit_end_time
      · rfl
      · exact (((Bool.and_eq_true _ _).mp hb).2).symm
    rw [mergeStep, htext, hend, hhas]
  have hloop : mergeLoop tIdx [x] segs [] =
      (segs.set tIdx (mergeStep A A), [x]) := by
    simp only [mergeLoop, hA, hget]
    rfl
  have hmm : mergeMultipleSegments [x, x] segs =
      (some x, (segs.set tIdx (mergeStep A A)).filter
        (fun s => decide (s.id ∉ [x]))) := by
    simp only [mergeMultipleSegments, hsort, hfix, hloop]
    rfl
  refine ⟨by rw [hmm], ?_, tIdx, hfix, by rw [hloop, hstep]⟩
  rw [hmm]
  exact getById_filter_mem x [x] (List.mem_singleton.mpr rfl) _

/-- Claim C9 witness: the self-merge behaviour on the concrete store
`[segA, segB]` with `x = "a"`. -/
theorem C9_merge_with_itself_witness :
    (mergeMultipleSegments [str "a", str "a"] [segA, segB]).1 = some (str "a") ∧
    getSegmentById (str "a")
        (mergeMultipleSegments [str "a", str "a"] [segA, segB]).2 = none ∧
    ∃ tIdx, [segA, segB].findIdx? (fun s => s.id = str "a") = some tIdx ∧
      (mergeLoop tIdx [str "a"] [segA, segB] []).1 =
        [segA, segB].set tIdx { segA with text := segA.text ++ ' ' :: segA.text } :=
  C9_merge_with_itself [segA, segB] (str "a") segA (by decide) (by decide) (by decide)

/-- Claim C10 counterexample: an empty-string reference id is non-null
and identifies no segment, yet — because Python's `if
reference_segment_id:` treats `""` as falsy — the new segment is
appended at the end of the non-empty store, neither at the front nor
before the last segment. -/
theorem C10_counterexample :
    getSegmentIndex [] [segA] = -1 ∧
    (addSegment (str "n") {} (some []) (str "above") [segA]).2 =
      [segA, mkAddedSegment (str "n") {}] := by
  refine ⟨by decide, by decide⟩

/-- Claim C10 (amended): for a non-empty reference id that identifies no
segment, the missing reference resolves to index −1, so position
"below" inserts at the front and any other position inserts before the
last element of a non-empty store (Python `insert(-1, ...)`). -/
theorem C10_missing_reference (newId : Str) (d : SegmentData) (pos : Str)
    (segs : List Segment) (rid : Str) (hrid : rid ≠ [])
    (hmiss : getSegmentIndex rid segs = -1) :
    (pos = str "below" →
      (addSegment newId d (some rid) pos segs).2 =
        mkAddedSegment newId d :: segs) ∧
    (pos ≠ str "below" → segs ≠ [] →
      (addSegment newId d (some rid) pos segs).2 =
        segs.insertIdx (segs.length - 1) (mkAddedSegment newId d)) := by
  constructor
  · intro hpos
    simp only [addSegment, if_neg hrid, hmiss, if_pos hpos]
    show pyInsert (-1 + 1) _ segs = _
    norm_num [pyInsert]
  · intro hpos hne
    simp only [addSegment, if_neg hrid, hmiss, if_neg hpos]
    show pyInsert (-1) _ segs = _
    rw [pyInsert]
    have hlen : 1 ≤ segs.length := by
      cases segs with
      | nil => exact absurd rfl hne
      | cons s t => simp
    have hj : ((segs.length : ℤ) + (-1)).toNat = segs.length - 1 := by omega
    simp only [if_pos (show (-1 : ℤ) < 0 from by norm_num), hj]

/-- Claim C10 witness: the amended behaviour at concrete inputs, for
position "below" (front insertion) and another position (insertion
before the last segment). -/
theorem C10_missing_reference_witness :
    (addSegment (str "n") {} (some (str "zz")) (str "below") [segA, segB]).2 =
      mkAddedSegment (str "n") {} :: [segA, segB] ∧
    (addSegment (str "n") {} (some (str "zz")) (str "above") [segA, segB]).2 =
      [segA, segB].insertIdx 1 (mkAddedSegment (str "n") {}) :=
  ⟨(C10_missing_reference (str "n") {} (str "below") [segA, segB] (str "zz")
      (by decide) (by decide)).1 rfl,
   (C10_missing_reference (str "n") {} (str "above") [segA, segB] (str "zz")
      (by decide) (by decide)).2 (by decide) (by decide)⟩

/-! ### UndoManager (src/core/undo_redo.py) -/

/-- `ModifyStateCommand`: a pair of full-state snapshots. -/
structure SnapshotCommand where
  before_segments : List Segment
  after_segments : List Segment
  before_map : List (Str × Str)
  after_map : List (Str × Str)
deriving DecidableEq, Repr

/-- The part of `SegmentManager` state the undo system swaps around. -/
structure ManagerState where
  segments : List Segment
  speaker_map : List (Str × Str)
  unique_speaker_labels : Finset Str
deriving DecidableEq

/-- Re-derivation of `unique_speaker_labels` performed by
`ModifyStateCommand.execute`/`undo`: keys of the restored map plus every
non-sentinel `speaker_raw` in the restored segments. -/
def deriveLabels (m : List (Str × Str)) (segs : List Segment) : Finset Str :=
  (m.map Prod.fst).toFinset ∪
    (segs.filterMap fun s =>
      if s.speaker_raw ≠ noSpeakerLabel then some s.speaker_raw else none).toFinset

/-- `ModifyStateCommand.execute` (applies the after snapshot). -/
def applyExecute (c : SnapshotCommand) (_st : ManagerState) : ManagerState :=
  { segments := c.after_segments, speaker_map := c.after_map,
    unique_speaker_labels := deriveLabels c.after_map c.after_segments }

/-- `ModifyStateCommand.undo` (applies the before snapshot). -/
def applyUndoCmd (c : SnapshotCommand) (_st : ManagerState) : ManagerState :=
  { segments := c.before_segments, speaker_map := c.before_map,
    unique_speaker_labels := deriveLabels c.before_map c.before_segments }

/-- `UndoManager` state: two stacks (top of stack at the list head;
Python appends/pops at the list end) plus the managed transcript. -/
structure UndoManagerState where
  undo_stack : List SnapshotCommand
  redo_stack : List SnapshotCommand
  mgr : ManagerState
deriving DecidableEq

/-- `UndoManager.add_command`: clears the redo stack (the code guards
the clear with `if self._redo_stack:` — same result) and pushes. -/
def addCommand (c : SnapshotCommand) (st : UndoManagerState) : UndoManagerState :=
  { undo_stack := c :: st.undo_stack, redo_stack := [], mgr := st.mgr }

/-- `UndoManager.undo`: no-op on an empty stack, else pop, apply the
before snapshot, push onto redo. -/
def undoOp (st : UndoManagerState) : UndoManagerState :=
  match st.undo_stack with
  | [] => st
  | c :: rest =>
    { undo_stack := rest, redo_stack := c :: st.redo_stack,
      mgr := applyUndoCmd c st.mgr }

/-- `UndoManager.redo`: no-op on an empty stack, else pop, re-execute
(apply the after snapshot), push back onto undo. -/
def redoOp (st : UndoManagerState) : UndoManagerState :=
  match st.redo_stack with
  | [] => st
  | c :: rest =>
    { undo_stack := c :: st.undo_stack, redo_stack := rest,
      mgr := applyExecute c st.mgr }

/-- Claim C4: `add_command` leaves the redo stack empty, `undo`/`redo`
on an empty respective stack leave the whole state (stacks and
transcript) unchanged, and therefore a `redo` after any
`undo`-then-`add_command` sequence is a no-op. -/
theorem C4_redo_cleared_by_new_command :
    (∀ (c : SnapshotCommand) (st : UndoManagerState),
      (addCommand c st).redo_stack = []) ∧
    (∀ st : UndoManagerState, st.undo_stack = [] → undoOp st = st) ∧
    (∀ st : UndoManagerState, st.redo_stack = [] → redoOp st = st) ∧
    (∀ (c : SnapshotCommand) (st : UndoManagerState),
      redoOp (addCommand c (undoOp st)) = addCommand c (undoOp st)) := by
  have hredo : ∀ st : UndoManagerState, st.redo_stack = [] → redoOp st = st := by
    intro st h
    rw [redoOp]
    split
    · rfl
    · next c rest heq => rw [h] at heq; cases heq
  refine ⟨fun c st => rfl, ?_, hredo, ?_⟩
  · intro st h
    rw [undoOp]
    split
    · rfl
    · next c rest heq => rw [h] at heq; cases heq
  · intro c st
    exact hredo (addCommand c (undoOp st)) rfl

def cmdDemo : SnapshotCommand :=
  { before_segments := [segA], after_segments := [segA, segB],
    before_map := [], after_map := [(str "S1", str "Alice")] }

def mgrDemo : ManagerState :=
  { segments := [segA, segB], speaker_map := [], unique_speaker_labels := ∅ }

def umDemo : UndoManagerState :=
  { undo_stack := [cmdDemo], redo_stack := [cmdDemo], mgr := mgrDemo }

def umDemoEmpty : UndoManagerState :=
  { undo_stack := [], redo_stack := [], mgr := mgrDemo }

/-- Claim C4 witness: the no-op laws evaluated at a concrete manager
state, with the empty-stack hypotheses discharged. -/
theorem C4_redo_cleared_by_new_command_witness :
    (addCommand cmdDemo umDemo).redo_stack = [] ∧
    undoOp umDemoEmpty = umDemoEmpty ∧
    redoOp umDemoEmpty = umDemoEmpty ∧
    redoOp (addCommand cmdDemo (undoOp umDemo)) =
      addCommand cmdDemo (undoOp umDemo) :=
  ⟨C4_redo_cleared_by_new_command.1 cmdDemo umDemo,
   C4_redo_cleared_by_new_command.2.1 umDemoEmpty rfl,
   C4_redo_cleared_by_new_command.2.2.1 umDemoEmpty rfl,
   C4_redo_cleared_by_new_command.2.2.2 cmdDemo umDemo⟩

/-! ### Aligner (src/core/audio_processor.py, _align_outputs) -/

/-- A transcription segment as consumed by `_align_outputs` (Python dict
keys `start`, `end`, `text`; `end` is a Lean keyword, hence `stop`). -/
structure TransSeg where
  start : ℚ
  stop : ℚ
  text : Str
deriving DecidableEq, Repr

/-- A diarization turn (dict keys `start`, `end`, `speaker`). -/
structure DiarTurn where
  start : ℚ
  stop : ℚ
  speaker : Str
deriving DecidableEq, Repr

/-- An aligned segment dict (keys `start_time`, `end_time`, `speaker`,
`text`). -/
structure AlignedSeg where
  start_time : ℚ
  end_time : ℚ
  speaker : Str
  text : Str
deriving DecidableEq, Repr

/-- `max(0, min(t.end, d.end) - max(t.start, d.start))` (line 125). -/
def overlap (t : TransSeg) (d : DiarTurn) : ℚ :=
  max 0 (min t.stop d.stop - max t.start d.start)

/-- The inner best-overlap loop of `_align_outputs` (lines 121–128):
starts from `best_overlap = 0` / `NO_SPEAKER`, replaces only on a
strictly greater overlap. -/
def assignSpeaker (t : TransSeg) (turns : List DiarTurn) : Str :=
  (turns.foldl
    (fun (acc : ℚ × Str) d =>
      if acc.1 < overlap t d then (overlap t d, d.speaker) else acc)
    (0, noSpeakerLabel)).2

/-- `AudioProcessor._align_outputs` (lines 116–140): one aligned dict
per transcription segment, plus the final empty-result note. -/
def alignOutputs (diarPerformed : Bool) (turns : List DiarTurn)
    (tsegs : List TransSeg) : List AlignedSeg :=
  let aligned := tsegs.map fun t =>
    { start_time := t.start, end_time := t.stop,
      speaker :=
        if diarPerformed && !turns.isEmpty then assignSpeaker t turns
        else noSpeakerLabel,
      text := pyStrip t.text }
  if aligned = [] ∧ tsegs ≠ [] then
    [{ start_time := 0, end_time := 0, speaker := str "NOTE",
       text := str "Alignment yielded no lines" }]
  else aligned

/-- Maximum of the overlaps of a list of turns (and 0). -/
def maxOv (t : TransSeg) (turns : List DiarTurn) : ℚ :=
  (turns.map (overlap t)).foldr max 0

/-- The speaker assignment described by the spec: the first turn whose
overlap attains the maximum, provided that maximum is positive,
otherwise `NO_SPEAKER`. -/
def specAssigned (t : TransSeg) (turns : List DiarTurn) : Str :=
  let m := maxOv t turns
  if m ≤ 0 then noSpeakerLabel
  else
    match turns.find? (fun d => overlap t d = m) with
    | some d => d.speaker
    | none => noSpeakerLabel

theorem maxOv_cons (t : TransSeg) (d : DiarTurn) (ds : List DiarTurn) :
    maxOv t (d :: ds) = max (overlap t d) (maxOv t ds) := rfl

theorem overlap_nonneg (t : TransSeg) (d : DiarTurn) : 0 ≤ overlap t d :=
  le_max_left _ _

theorem maxOv_nonneg (t : TransSeg) : ∀ turns, 0 ≤ maxOv t turns := by
  intro turns
  induction turns with
  | nil => exact le_refl 0
  | cons d ds ih => rw [maxOv_cons]; exact le_trans ih (le_max_right _ _)

theorem overlap_le_maxOv (t : TransSeg) :
    ∀ (turns : List DiarTurn) (d : DiarTurn), d ∈ turns →
    overlap t d ≤ maxOv t turns := by
  intro turns
  induction turns with
  | nil => intro d h; cases h
  | cons e es ih =>
    intro d h
    rw [maxOv_cons]
    rcases List.mem_cons.mp h with rfl | hm
    · exact le_max_left _ _
    · exact le_trans (ih d hm) (le_max_right _ _)

theorem maxOv_attained (t : TransSeg) :
    ∀ turns : List DiarTurn, 0 < maxOv t turns →
    ∃ d, turns.find? (fun d => decide (maxOv t turns ≤ overlap t d)) = some d ∧
      overlap t d = maxOv t turns := by
  intro turns
  induction turns with
  | nil => intro h; simp [maxOv] at h
  | cons e es ih =>
    intro h
    rw [maxOv_cons] at h ⊢
    by_cases he : max (overlap t e) (maxOv t es) ≤ overlap t e
    · refine ⟨e, ?_, le_antisymm (le_max_left _ _) he⟩
      exact List.find?_cons_of_pos _ (decide_eq_true he)
    · have hlt : overlap t e < max (overlap t e) (maxOv t es) := lt_of_not_le he
      have hmax : max (overlap t e) (maxOv t es) = maxOv t es := by
        rcases max_cases (overlap t e) (maxOv t es) with ⟨h1, _⟩ | ⟨h1, _⟩
        · rw [h1] at hlt; exact absurd hlt (lt_irrefl _)
        · exact h1
      rw [hmax] at h hlt ⊢
      obtain ⟨d, hd, hov⟩ := ih h
      refine ⟨d, ?_, hov⟩
      rw [List.find?_cons_of_neg]
      · exact hd
      · simp only [decide_eq_true_eq]
        exact not_le.mpr hlt

theorem find?_congr_mem :
    ∀ (l : List DiarTurn) (p q : DiarTurn → Bool),
    (∀ a ∈ l, p a = q a) → l.find? p = l.find? q := by
  intro l
  induction l with
  | nil => intro p q _; rfl
  | cons a as ih =>
    intro p q h
    rw [List.find?_cons, List.find?_cons, h a (List.mem_cons_self a as),
      ih p q fun b hb => h b (List.mem_cons_of_mem a hb)]

theorem assign_fold (t : TransSeg) :
    ∀ (turns : List DiarTurn) (b : ℚ) (sp : Str), 0 ≤ b →
    (maxOv t turns ≤ b →
      turns.foldl (fun (acc : ℚ × Str) d =>
        if acc.1 < overlap t d then (overlap t d, d.speaker) else acc) (b, sp) =
      (b, sp)) ∧
    (b < maxOv t turns →
      ∃ d, turns.find? (fun d => decide (maxOv t turns ≤ overlap t d)) = some d ∧
      turns.foldl (fun (acc : ℚ × Str) d =>
        if acc.1 < overlap t d then (overlap t d, d.speaker) else acc) (b, sp) =
      (maxOv t turns, d.speaker)) := by
  intro turns
  induction turns with
  | nil =>
    intro b sp hb
    refine ⟨fun _ => rfl, fun h => ?_⟩
    exact absurd (lt_of_le_of_lt hb h) (by simp [maxOv])
  | cons e es ih =>
    intro b sp hb
    constructor
    · intro hle
      rw [maxOv_cons, max_le_iff] at hle
      rw [List.foldl_cons, if_neg (not_lt.mpr hle.1)]
      exact (ih b sp hb).1 hle.2
    · intro hlt
      by_cases hcase : maxOv t (e :: es) ≤ overlap t e
      · have hove : overlap t e = maxOv t (e :: es) :=
          le_antisymm (by rw [maxOv_cons]; exact le_max_left _ _) hcase
        refine ⟨e, List.find?_cons_of_pos _ (decide_eq_true hcase), ?_⟩
        rw [List.foldl_cons, if_pos (by rw [hove]; exact hlt)]
        rw [hove]
        exact (ih (maxOv t (e :: es)) e.speaker
          (le_trans hb (le_of_lt hlt))).1 (by rw [maxOv_cons]; exact le_max_right _ _)
      · have hlte : overlap t e < maxOv t (e :: es) := lt_of_not_le hcase
        have hmax : maxOv t (e :: es) = maxOv t es := by
          rw [maxOv_cons]
          rcases max_cases (overlap t e) (maxOv t es) with ⟨h1, _⟩ | ⟨h1, _⟩
          · rw [maxOv_cons, h1] at hlte; exact absurd hlte (lt_irrefl _)
          · exact h1
        rw [hmax] at hlt hlte ⊢
        have hfind : (e :: es).find?
            (fun d => decide (maxOv t es ≤ overlap t d)) =
            es.find? (fun d => decide (maxOv t es ≤ overlap t d)) := by
          apply List.find?_cons_of_neg
          simp only [decide_eq_true_eq]
          exact not_le.mpr hlte
        rw [hfind, List.foldl_cons]
        by_cases hbe : b < overlap t e
        · rw [if_pos hbe]
          exact ((ih (overlap t e) e.speaker (overlap_nonneg t e)).2 hlte)
        · rw [if_neg hbe]
          exact ((ih b sp hb).2 hlt)

/-- Claim C5: with diarization performed and a non-empty turn list, the
aligner's loop assigns each transcription segment the speaker of the
first turn attaining the maximal overlap — a turn only replaces the
current best when its overlap strictly exceeds it — and `NO_SPEAKER`
when no turn has positive overlap. -/
theorem C5_alignment_first_max (turns : List DiarTurn) (hne : turns ≠ []) :
    (∀ t, assignSpeaker t turns = specAssigned t turns) ∧
    ∀ tsegs : List TransSeg,
      (alignOutputs true turns tsegs).map (fun a => a.speaker) =
        tsegs.map (fun t => specAssigned t turns) := by
  have hmain : ∀ t, assignSpeaker t turns = specAssigned t turns := by
    intro t
    rw [assignSpeaker, specAssigned]
    by_cases hm : maxOv t turns ≤ 0
    · rw [if_pos hm, (assign_fold t turns 0 noSpeakerLabel (le_refl 0)).1 hm]
    · have hpos : 0 < maxOv t turns := lt_of_not_le hm
      rw [if_neg hm]
      obtain ⟨d, hd, hfold⟩ :=
        (assign_fold t turns 0 noSpeakerLabel (le_refl 0)).2 hpos
      rw [hfold]
      have hcongr : turns.find? (fun d => decide (overlap t d = maxOv t turns)) =
          turns.find? (fun d => decide (maxOv t turns ≤ overlap t d)) := by
        apply find?_congr_mem
        intro a ha
        have hle := overlap_le_maxOv t turns a ha
        by_cases he : overlap t a = maxOv t turns
        · rw [decide_eq_true he, decide_eq_true (le_of_eq he.symm)]
        · rw [decide_eq_false he, decide_eq_false]
          exact fun hge => he (le_antisymm hle hge)
      rw [hcongr, hd]
  refine ⟨hmain, ?_⟩
  intro tsegs
  rw [alignOutputs]
  have hturns : turns.isEmpty = false := by
    cases turns with
    | nil => exact absurd rfl hne
    | cons a as => rfl
  rw [if_neg]
  · rw [List.map_map]
    apply List.map_congr_left
    intro t _
    simp only [Function.comp, hturns, Bool.not_false, Bool.and_true]
    exact hmain t
  · rintro ⟨hemp, hnemp⟩
    exact hnemp (List.map_eq_nil_iff.mp hemp)

def turnD1 : DiarTurn := { start := 0, stop := 2, speaker := str "S1" }
def turnD2 : DiarTurn := { start := 2, stop := 4, speaker := str "S2" }
def tsegD : TransSeg := { start := 1, stop := 3, text := str " hi " }

theorem overlap_demo_one : overlap tsegD turnD1 = 1 := by
  show max 0 (min (3 : ℚ) 2 - max 1 0) = 1
  rw [min_def, max_def, max_def]
  norm_num

theorem overlap_demo_two : overlap tsegD turnD2 = 1 := by
  show max 0 (min (3 : ℚ) 4 - max 1 2) = 1
  rw [min_def, max_def, max_def]
  norm_num

/-- Claim C5 witness: a segment overlapping two turns by exactly one
second each is assigned the first turn's speaker. -/
theorem C5_alignment_first_max_witness :
    assignSpeaker tsegD [turnD1, turnD2] = specAssigned tsegD [turnD1, turnD2] ∧
    assignSpeaker tsegD [turnD1, turnD2] = str "S1" ∧
    overlap tsegD turnD1 = 1 ∧ overlap tsegD turnD2 = 1 ∧
    (alignOutputs true [turnD1, turnD2] [tsegD]).map (fun a => a.speaker) =
      [specAssigned tsegD [turnD1, turnD2]] :=
  ⟨(C5_alignment_first_max [turnD1, turnD2] (by simp)).1 tsegD,
   by
     rw [assignSpeaker]
     simp only [List.foldl_cons, List.foldl_nil, overlap_demo_one, overlap_demo_two]
     decide,
   overlap_demo_one, overlap_demo_two,
   (C5_alignment_first_max [turnD1, turnD2] (by simp)).2 [tsegD]⟩

/-! ### Auto-merge (src/core/audio_processor.py, _perform_auto_merge) -/

/-- The merge condition of `_perform_auto_merge` (lines 156–159): equal
speakers and the shared speaker not in the unmergable set
`{NO_SPEAKER_LABEL}`. -/
def canAutoMerge (acc s : AlignedSeg) : Bool :=
  acc.speaker = s.speaker && !(acc.speaker = noSpeakerLabel)

/-- One absorption (lines 161–162): append the text with a single space
and extend the end time. -/
def autoAbsorb (acc s : AlignedSeg) : AlignedSeg :=
  { acc with text := acc.text ++ ' ' :: s.text, end_time := s.end_time }

/-- The accumulator loop of `_perform_auto_merge` (lines 152–168),
entered with the first segment as the accumulator. -/
def autoMergeGo (acc : AlignedSeg) : List AlignedSeg → List AlignedSeg
  | [] => [acc]
  | s :: rest =>
    if canAutoMerge acc s then autoMergeGo (autoAbsorb acc s) rest
    else acc :: autoMergeGo s rest

/-- `AudioProcessor._perform_auto_merge` (lines 142–174): identity when
the feature is disabled or the input is empty. -/
def performAutoMerge (enabled : Bool) (segs : List AlignedSeg) :
    List AlignedSeg :=
  if !enabled || segs.isEmpty then segs
  else
    match segs with
    | [] => []
    | s :: rest => autoMergeGo s rest

theorem autoAbsorb_speaker (acc s : AlignedSeg) :
    (autoAbsorb acc s).speaker = acc.speaker := rfl

theorem autoMergeGo_ne_nil (acc : AlignedSeg) :
    ∀ l : List AlignedSeg, autoMergeGo acc l ≠ [] := by
  intro l
  induction l generalizing acc with
  | nil => simp [autoMergeGo]
  | cons s rest ih =>
    rw [autoMergeGo]
    by_cases h : canAutoMerge acc s = true
    · rw [if_pos h]; exact ih (autoAbsorb acc s)
    · rw [if_neg h]; simp

theorem autoMergeGo_head_speaker (acc : AlignedSeg) :
    ∀ l : List AlignedSeg, ∃ h t, autoMergeGo acc l = h :: t ∧
      h.speaker = acc.speaker := by
  intro l
  induction l generalizing acc with
  | nil => exact ⟨acc, [], rfl, rfl⟩
  | cons s rest ih =>
    rw [autoMergeGo]
    by_cases h : canAutoMerge acc s = true
    · rw [if_pos h]
      obtain ⟨hh, ht, he, hs⟩ := ih (autoAbsorb acc s)
      exact ⟨hh, ht, he, hs.trans (autoAbsorb_speaker acc s)⟩
    · rw [if_neg h]
      exact ⟨acc, autoMergeGo s rest, rfl, rfl⟩

theorem autoMergeGo_chain (acc : AlignedSeg) :
    ∀ l : List AlignedSeg,
    List.Chain' (fun a b => canAutoMerge a b = false) (autoMergeGo acc l) := by
  intro l
  induction l generalizing acc with
  | nil => simp [autoMergeGo]
  | cons s rest ih =>
    rw [autoMergeGo]
    by_cases h : canAutoMerge acc s = true
    · rw [if_pos h]; exact ih (autoAbsorb acc s)
    · rw [if_neg h]
      obtain ⟨hh, ht, he, hs⟩ := autoMergeGo_head_speaker s rest
      rw [he]
      rw [List.chain'_cons]
      refine ⟨?_, he ▸ ih s⟩
      have : canAutoMerge acc hh = canAutoMerge acc s := by
        rw [canAutoMerge, canAutoMerge, hs]
      rw [this]
      exact Bool.not_eq_true _ ▸ h
  
theorem autoMergeGo_fixed :
    ∀ (l : List AlignedSeg) (acc : AlignedSeg),
    List.Chain' (fun a b => canAutoMerge a b = false) (acc :: l) →
    autoMergeGo acc l = acc :: l := by
  intro l
  induction l with
  | nil => intro acc _; rfl
  | cons s rest ih =>
    intro acc hch
    rw [autoMergeGo, if_neg]
    · rw [ih s (List.chain'_cons.mp hch).2]
    · rw [(List.chain'_cons.mp hch).1]
      simp

/-- Claim C6: `_perform_auto_merge` is idempotent — applying it to its
own output changes nothing, whether the feature is enabled or not. -/
theorem C6_auto_merge_idempotent (enabled : Bool) (segs : List AlignedSeg) :
    performAutoMerge enabled (performAutoMerge enabled segs) =
      performAutoMerge enabled segs := by
  cases enabled with
  | false => rfl
  | true =>
    cases segs with
    | nil => rfl
    | cons s rest =>
      rw [performAutoMerge]
      rw [if_neg (by simp)]
      show performAutoMerge true (autoMergeGo s rest) = autoMergeGo s rest
      obtain ⟨hh, ht, he, _⟩ := autoMergeGo_head_speaker s rest
      rw [he, performAutoMerge, if_neg (by simp)]
      show autoMergeGo hh ht = hh :: ht
      exact autoMergeGo_fixed ht hh (he ▸ autoMergeGo_chain s rest)

/-! ### Time codec (SegmentManager.time_str_to_seconds /
seconds_to_time_str) -/

/-- `SegmentManager.time_str_to_seconds` (lines 27–34): split on `:`
(two or three parts), split the seconds field on `.` into exactly two
parts, parse each with `int`; any failure (including the unpack of a
wrong number of `.`-parts, a `ValueError`) yields `None`. -/
def timeThreeAux (h m : Str) : List Str → Option ℚ
  | [ss, ms] => do
    let hv ← pyInt h
    let mv ← pyInt m
    let sv ← pyInt ss
    let msv ← pyInt ms
    pure ((hv : ℚ) * 3600 + (mv : ℚ) * 60 + (sv : ℚ) + (msv : ℚ) / 1000)
  | _ => none

def timeTwoAux (m : Str) : List Str → Option ℚ
  | [ss, ms] => do
    let mv ← pyInt m
    let sv ← pyInt ss
    let msv ← pyInt ms
    pure ((mv : ℚ) * 60 + (sv : ℚ) + (msv : ℚ) / 1000)
  | _ => none

def timeFromParts : List Str → Option ℚ
  | [h, m, sms] => timeThreeAux h m (pySplit '.' sms)
  | [m, sms] => timeTwoAux m (pySplit '.' sms)
  | _ => none

def timeStrToSeconds (s : Str) : Option ℚ :=
  if s = [] then none else timeFromParts (pySplit ':' s)

/-- The fixed-shape group `(\d{2}:\d{2}\.\d{3})`: returns the nine
matched characters and the rest of the input. -/
def matchTS : Str → Option (Str × Str)
  | c0 :: c1 :: c2 :: c3 :: c4 :: c5 :: c6 :: c7 :: c8 :: rest =>
    if isDigitCh c0 && isDigitCh c1 && (c2 = ':') && isDigitCh c3 &&
        isDigitCh c4 && (c5 = '.') && isDigitCh c6 && isDigitCh c7 &&
        isDigitCh c8
    then some ([c0, c1, c2, c3, c4, c5, c6, c7, c8], rest)
    else none
  | _ => none

/-- Split at the first `:`; `none` when the string has no colon. -/
def splitFirstColon : Str → Option (Str × Str)
  | [] => none
  | c :: cs =>
    if c = ':' then some ([], cs)
    else (splitFirstColon cs).map fun p => (c :: p.1, p.2)

/-- `\s*([^:]+?):\s*(.*)$` applied to `r`: the group is what stands
between the maximal whitespace prefix and the first colon — except that
when everything before the colon is whitespace, backtracking of `\s*`
leaves exactly one character in the lazy group. -/
def speakerSplit (r : Str) : Option (Str × Str) :=
  match splitFirstColon r with
  | none => none
  | some (p, rest) =>
    if p = [] then none
    else
      let w := (p.takeWhile pyIsSpace).length
      some (p.drop (min w (p.length - 1)), rest.dropWhile pyIsSpace)

/-- `pattern_start_end_ts_speaker`:
`^\[(ts)\s*-\s*(ts)\]\s*([^:]+?):\s*(.*)$`. -/
def mSeSpk (line : Str) : Option (Str × Str × Str × Str) :=
  match line with
  | '[' :: r1 =>
    match matchTS r1 with
    | none => none
    | some (t1, r2) =>
      match r2.dropWhile pyIsSpace with
      | '-' :: r4 =>
        match matchTS (r4.dropWhile pyIsSpace) with
        | none => none
        | some (t2, r6) =>
          match r6 with
          | ']' :: r7 =>
            (speakerSplit r7).map fun p => (t1, t2, p.1, p.2)
          | _ => none
      | _ => none
  | _ => none

/-- `pattern_start_end_ts_only`: `^\[(ts)\s*-\s*(ts)\]\s*(.*)$`. -/
def mSeOnly (line : Str) : Option (Str × Str × Str) :=
  match line with
  | '[' :: r1 =>
    match matchTS r1 with
    | none => none
    | some (t1, r2) =>
      match r2.dropWhile pyIsSpace with
      | '-' :: r4 =>
        match matchTS (r4.dropWhile pyIsSpace) with
        | none => none
        | some (t2, r6) =>
          match r6 with
          | ']' :: r7 => some (t1, t2, r7.dropWhile pyIsSpace)
          | _ => none
      | _ => none
  | _ => none

/-- `pattern_start_ts_speaker`: `^\[(ts)\]\s*([^:]+?):\s*(.*)$`. -/
def mSSpk (line : Str) : Option (Str × Str × Str) :=
  match line with
  | '[' :: r1 =>
    match matchTS r1 with
    | none => none
    | some (t1, r2) =>
      match r2 with
      | ']' :: r3 => (speakerSplit r3).map fun p => (t1, p.1, p.2)
      | _ => none
  | _ => none

/-- `pattern_start_ts_only`: `^\[(ts)\]\s*(.*)$`. -/
def mSOnly (line : Str) : Option (Str × Str) :=
  match line with
  | '[' :: r1 =>
    match matchTS r1 with
    | none => none
    | some (t1, r2) =>
      match r2 with
      | ']' :: r3 => some (t1, r3.dropWhile pyIsSpace)
      | _ => none
  | _ => none

/-- `pattern_speaker_only`: `^\s*([^:]+?):\s*(.*)$`. -/
def mSpkOnly (line : Str) : Option (Str × Str) :=
  speakerSplit line

/-! ### parse_transcription_lines and format_segments_for_saving -/

/-- The per-line variables of `parse_transcription_lines`
(`start_s, end_s, speaker, text, has_ts, has_explicit_end, parsed_ok`). -/
structure LineFields where
  start_s : ℚ
  end_s : Option ℚ
  speaker : Str
  text : Str
  has_ts : Bool
  has_end : Bool
  ok : Bool
deriving DecidableEq, Repr

/-- Default field values for a line no pattern claimed (`text = line`). -/
def defaultFields (line : Str) (ok : Bool) : LineFields :=
  { start_s := 0, end_s := none, speaker := noSpeakerLabel, text := line,
    has_ts := false, has_end := false, ok := ok }

/-- The `elif` chain of `parse_transcription_lines` (lines 52–69): a
pattern that matches CLAIMS the line — if its bracketed times then fail
to parse, no later pattern is tried and the line stays a bare-text
segment with `parsed_ok = False`. -/
def parseLineFields (line : Str) : LineFields :=
  match mSeSpk line with
  | some (s, e, spk, txt) =>
    match timeStrToSeconds s, timeStrToSeconds e with
    | some ps, some pe =>
      { start_s := ps, end_s := some pe, speaker := pyStrip spk,
        text := pyStrip txt, has_ts := true, has_end := true, ok := true }
    | _, _ => defaultFields line false
  | none =>
  match mSeOnly line with
  | some (s, e, txt) =>
    match timeStrToSeconds s, timeStrToSeconds e with
    | some ps, some pe =>
      { start_s := ps, end_s := some pe, speaker := noSpeakerLabel,
        text := pyStrip txt, has_ts := true, has_end := true, ok := true }
    | _, _ => defaultFields line false
  | none =>
  match mSSpk line with
  | some (s, spk, txt) =>
    match timeStrToSeconds s with
    | some ps =>
      { start_s := ps, end_s := none, speaker := pyStrip spk,
        text := pyStrip txt, has_ts := true, has_end := false, ok := true }
    | none => defaultFields line false
  | none =>
  match mSOnly line with
  | some (s, txt) =>
    match timeStrToSeconds s with
    | some ps =>
      { start_s := ps, end_s := none, speaker := noSpeakerLabel,
        text := pyStrip txt, has_ts := true, has_end := false, ok := true }
    | none => defaultFields line false
  | none =>
  match mSpkOnly line with
  | some (spk, txt) =>
    { start_s := 0, end_s := none, speaker := pyStrip spk,
      text := pyStrip txt, has_ts := false, has_end := false, ok := true }
  | none => defaultFields line true

/-- The behaviour the spec describes for the same chain: a bracketed
pattern only counts as matched when its times parse, otherwise the line
FALLS THROUGH to the next pattern in priority order. -/
def parseLineFieldsSpec (line : Str) : LineFields :=
  match mSeSpk line with
  | some (s, e, spk, txt) =>
    match timeStrToSeconds s, timeStrToSeconds e with
    | some ps, some pe =>
      { start_s := ps, end_s := some pe, speaker := pyStrip spk,
        text := pyStrip txt, has_ts := true, has_end := true, ok := true }
    | _, _ => parseLineFieldsSpecSeOnly line
  | none => parseLineFieldsSpecSeOnly line
where
  parseLineFieldsSpecSeOnly (line : Str) : LineFields :=
    match mSeOnly line with
    | some (s, e, txt) =>
      match timeStrToSeconds s, timeStrToSeconds e with
      | some ps, some pe =>
        { start_s := ps, end_s := some pe, speaker := noSpeakerLabel,
          text := pyStrip txt, has_ts := true, has_end := true, ok := true }
      | _, _ => parseLineFieldsSpecSSpk line
    | none => parseLineFieldsSpecSSpk line
  parseLineFieldsSpecSSpk (line : Str) : LineFields :=
    match mSSpk line with
    | some (s, spk, txt) =>
      match timeStrToSeconds s with
      | some ps =>
        { start_s := ps, end_s := none, speaker := pyStrip spk,
          text := pyStrip txt, has_ts := true, has_end := false, ok := true }
      | none => parseLineFieldsSpecSOnly line
    | none => parseLineFieldsSpecSOnly line
  parseLineFieldsSpecSOnly (line : Str) : LineFields :=
    match mSOnly line with
    | some (s, txt) =>
      match timeStrToSeconds s with
      | some ps =>
        { start_s := ps, end_s := none, speaker := noSpeakerLabel,
          text := pyStrip txt, has_ts := true, has_end := false, ok := true }
      | none => parseLineFieldsSpecSpkOnly line
    | none => parseLineFieldsSpecSpkOnly line
  parseLineFieldsSpecSpkOnly (line : Str) : LineFields :=
    match mSpkOnly line with
    | some (spk, txt) =>
      { start_s := 0, end_s := none, speaker := pyStrip spk,
        text := pyStrip txt, has_ts := false, has_end := false, ok := true }
    | none => defaultFields line true

theorem digit_ne_colon (c : Char) (h : isDigitCh c = true) : ¬(c = ':') :=
  fun he => absurd (he ▸ h) (by decide)

theorem digit_ne_dot (c : Char) (h : isDigitCh c = true) : ¬(c = '.') :=
  fun he => absurd (he ▸ h) (by decide)

theorem digit_ne_plus (c : Char) (h : isDigitCh c = true) : ¬(c = '+') :=
  fun he => absurd (he ▸ h) (by decide)

theorem digit_ne_minus (c : Char) (h : isDigitCh c = true) : ¬(c = '-') :=
  fun he => absurd (he ▸ h) (by decide)

theorem digit_not_space (c : Char) (h : isDigitCh c = true) :
    pyIsSpace c = false := by
  by_contra hs
  have hs' : pyIsSpace c = true := by
    cases he : pyIsSpace c
    · exact absurd he hs
    · rfl
  simp only [pyIsSpace, Bool.or_eq_true, decide_eq_true_eq] at hs'
  rcases hs' with ((((h1 | h1) | h1) | h1) | h1) | h1 <;>
    subst h1 <;> exact absurd h (by decide)

theorem pyStrip_digits (x y : Char) (hx : isDigitCh x = true)
    (hy : isDigitCh y = true) : pyStrip [x, y] = [x, y] := by
  rw [pyStrip]
  rw [List.dropWhile_cons_of_neg (by rw [digit_not_space x hx]; simp)]
  show ([x, y].reverse.dropWhile pyIsSpace).reverse = [x, y]
  rw [show ([x, y].reverse) = [y, x] from rfl]
  rw [List.dropWhile_cons_of_neg (by rw [digit_not_space y hy]; simp)]
  rfl

theorem pyStrip_digits3 (x y z : Char) (hx : isDigitCh x = true)
    (hy : isDigitCh y = true) (hz : isDigitCh z = true) :
    pyStrip [x, y, z] = [x, y, z] := by
  rw [pyStrip]
  rw [List.dropWhile_cons_of_neg (by rw [digit_not_space x hx]; simp)]
  show ([x, y, z].reverse.dropWhile pyIsSpace).reverse = [x, y, z]
  rw [show ([x, y, z].reverse) = [z, y, x] from rfl]
  rw [List.dropWhile_cons_of_neg (by rw [digit_not_space z hz]; simp)]
  rfl

theorem pyInt_digits2 (x y : Char) (hx : isDigitCh x = true)
    (hy : isDigitCh y = true) :
    pyInt [x, y] = some ((10 * digitVal x + digitVal y : ℕ) : ℤ) := by
  rw [pyInt, pyStrip_digits x y hx hy, pyIntCore]
  rw [if_neg (digit_ne_plus x hx), if_neg (digit_ne_minus x hx)]
  rw [digitsVal, if_neg (by simp), if_pos (by simp [hx, hy])]
  simp [List.foldl, Int.ofNat_eq_coe]

theorem pyInt_digits3 (x y z : Char) (hx : isDigitCh x = true)
    (hy : isDigitCh y = true) (hz : isDigitCh z = true) :
    pyInt [x, y, z] =
      some ((100 * digitVal x + 10 * digitVal y + digitVal z : ℕ) : ℤ) := by
  rw [pyInt, pyStrip_digits3 x y z hx hy hz, pyIntCore]
  rw [if_neg (digit_ne_plus x hx), if_neg (digit_ne_minus x hx)]
  rw [digitsVal, if_neg (by simp), if_pos (by simp [hx, hy, hz])]
  have : 10 * (10 * digitVal x + digitVal y) + digitVal z =
      100 * digitVal x + 10 * digitVal y + digitVal z := by ring
  simp [List.foldl, Int.ofNat_eq_coe, this]

/-! ### pySplit computation lemmas -/

theorem pySplit_cons_of_ne (sep c : Char) (cs : Str) (h : ¬c = sep)
    (t : Str) (ts : List Str) (hcs : pySplit sep cs = t :: ts) :
    pySplit sep (c :: cs) = (c :: t) :: ts := by
  rw [pySplit, if_neg h, hcs]

theorem pySplit_cons_of_eq (sep : Char) (cs : Str) :
    pySplit sep (sep :: cs) = [] :: pySplit sep cs := by
  rw [pySplit, if_pos rfl]

theorem pySplit_no_sep (sep : Char) :
    ∀ s : Str, (∀ c ∈ s, ¬c = sep) → pySplit sep s = [s] := by
  intro s
  induction s with
  | nil => intro _; rfl
  | cons c cs ih =>
    intro h
    exact pySplit_cons_of_ne sep c cs (h c (List.mem_cons_self c cs)) cs []
      (ih fun x hx => h x (List.mem_cons_of_mem c hx))

theorem pySplit_colon_shape (c0 c1 c3 c4 c6 c7 c8 : Char)
    (h0 : isDigitCh c0 = true) (h1 : isDigitCh c1 = true)
    (h3 : isDigitCh c3 = true) (h4 : isDigitCh c4 = true)
    (h6 : isDigitCh c6 = true) (h7 : isDigitCh c7 = true)
    (h8 : isDigitCh c8 = true) :
    pySplit ':' [c0, c1, ':', c3, c4, '.', c6, c7, c8] =
      [[c0, c1], [c3, c4, '.', c6, c7, c8]] := by
  have hrest : pySplit ':' [c3, c4, '.', c6, c7, c8] =
      [[c3, c4, '.', c6, c7, c8]] := by
    apply pySplit_no_sep
    intro c hc
    simp only [List.mem_cons, List.not_mem_nil, or_false] at hc
    rcases hc with rfl | rfl | rfl | rfl | rfl | rfl
    · exact digit_ne_colon _ h3
    · exact digit_ne_colon _ h4
    · decide
    · exact digit_ne_colon _ h6
    · exact digit_ne_colon _ h7
    · exact digit_ne_colon _ h8
  have h2 : pySplit ':' (':' :: [c3, c4, '.', c6, c7, c8]) =
      [[], [c3, c4, '.', c6, c7, c8]] := by
    rw [pySplit_cons_of_eq, hrest]
  have h1' := pySplit_cons_of_ne ':' c1 _ (digit_ne_colon c1 h1) _ _ h2
  exact pySplit_cons_of_ne ':' c0 _ (digit_ne_colon c0 h0) _ _ h1'

theorem pySplit_dot_shape (c3 c4 c6 c7 c8 : Char)
    (h3 : isDigitCh c3 = true) (h4 : isDigitCh c4 = true)
    (h6 : isDigitCh c6 = true) (h7 : isDigitCh c7 = true)
    (h8 : isDigitCh c8 = true) :
    pySplit '.' [c3, c4, '.', c6, c7, c8] = [[c3, c4], [c6, c7, c8]] := by
  have hrest : pySplit '.' [c6, c7, c8] = [[c6, c7, c8]] := by
    apply pySplit_no_sep
    intro c hc
    simp only [List.mem_cons, List.not_mem_nil, or_false] at hc
    rcases hc with rfl | rfl | rfl
    · exact digit_ne_dot _ h6
    · exact digit_ne_dot _ h7
    · exact digit_ne_dot _ h8
  have h2 : pySplit '.' ('.' :: [c6, c7, c8]) = [[], [c6, c7, c8]] := by
    rw [pySplit_cons_of_eq, hrest]
  have h4' := pySplit_cons_of_ne '.' c4 _ (digit_ne_dot c4 h4) _ _ h2
  exact pySplit_cons_of_ne '.' c3 _ (digit_ne_dot c3 h3) _ _ h4'

/-- A candidate timestamp string of the regex shape `\d{2}:\d{2}\.\d{3}`
always parses, to minutes·60 + seconds + milliseconds/1000. -/
theorem timeStrToSeconds_digits (c0 c1 c3 c4 c6 c7 c8 : Char)
    (h0 : isDigitCh c0 = true) (h1 : isDigitCh c1 = true)
    (h3 : isDigitCh c3 = true) (h4 : isDigitCh c4 = true)
    (h6 : isDigitCh c6 = true) (h7 : isDigitCh c7 = true)
    (h8 : isDigitCh c8 = true) :
    timeStrToSeconds [c0, c1, ':', c3, c4, '.', c6, c7, c8] =
      some (((10 * digitVal c0 + digitVal c1 : ℕ) : ℚ) * 60 +
        ((10 * digitVal c3 + digitVal c4 : ℕ) : ℚ) +
        ((100 * digitVal c6 + 10 * digitVal c7 + digitVal c8 : ℕ) : ℚ) / 1000) := by
  rw [timeStrToSeconds, if_neg (by simp)]
  rw [pySplit_colon_shape c0 c1 c3 c4 c6 c7 c8 h0 h1 h3 h4 h6 h7 h8]
  rw [timeFromParts]
  rw [pySplit_dot_shape c3 c4 c6 c7 c8 h3 h4 h6 h7 h8]
  rw [timeTwoAux]
  rw [pyInt_digits2 c0 c1 h0 h1, pyInt_digits2 c3 c4 h3 h4,
    pyInt_digits3 c6 c7 c8 h6 h7 h8]
  simp [Option.bind]

/-- Inversion for `matchTS`: a successful match yields exactly the
regex shape `\\d{2}:\\d{2}\\.\\d{3}` and the input decomposes as group ++
rest. -/
theorem matchTS_some (cs g r : Str) (h : matchTS cs = some (g, r)) :
    ∃ c0 c1 c3 c4 c6 c7 c8,
      g = [c0, c1, ':', c3, c4, '.', c6, c7, c8] ∧ cs = g ++ r ∧
      isDigitCh c0 = true ∧ isDigitCh c1 = true ∧ isDigitCh c3 = true ∧
      isDigitCh c4 = true ∧ isDigitCh c6 = true ∧ isDigitCh c7 = true ∧
      isDigitCh c8 = true := by
  unfold matchTS at h
  split at h
  · next c0 c1 c2 c3 c4 c5 c6 c7 c8 rest =>
    split at h
    · next hcond =>
      simp only [Bool.and_eq_true, decide_eq_true_eq] at hcond
      obtain ⟨⟨⟨⟨⟨⟨⟨⟨hd0, hd1⟩, hc2⟩, hd3⟩, hd4⟩, hc5⟩, hd6⟩, hd7⟩, hd8⟩ := hcond
      simp only [Option.some.injEq, Prod.mk.injEq] at h
      obtain ⟨hg, hr⟩ := h
      subst hc2
      subst hc5
      refine ⟨c0, c1, c3, c4, c6, c7, c8, hg.symm, ?_,
        hd0, hd1, hd3, hd4, hd6, hd7, hd8⟩
      rw [← hg, ← hr]
      rfl
    · cases h
  · cases h

/-- Every bracketed time string any of the five patterns captures
successfully time-parses. -/
theorem timeParse_of_matchTS (cs g r : Str) (h : matchTS cs = some (g, r)) :
    ∃ v, timeStrToSeconds g = some v := by
  obtain ⟨c0, c1, c3, c4, c6, c7, c8, hg, _, hd0, hd1, hd3, hd4, hd6, hd7, hd8⟩ :=
    matchTS_some cs g r h
  subst hg
  exact ⟨_, timeStrToSeconds_digits c0 c1 c3 c4 c6 c7 c8 hd0 hd1 hd3 hd4 hd6 hd7 hd8⟩

theorem mSeSpk_times_parse (line s e spk txt : Str)
    (h : mSeSpk line = some (s, e, spk, txt)) :
    (∃ v, timeStrToSeconds s = some v) ∧ ∃ v, timeStrToSeconds e = some v := by
  unfold mSeSpk at h
  split at h
  · split at h
    · cases h
    · next t1 r2 hm1 =>
      split at h
      · next r4 =>
        split at h
        · cases h
        · next t2 r6 hm2 =>
          split at h
          · next r7 =>
            rcases hsp : speakerSplit r7 with _ | p
            · rw [hsp] at h; cases h
            · rw [hsp] at h
              injection h with h'
              simp only [Prod.mk.injEq] at h'
              obtain ⟨h1, h2, _, _⟩ := h'
              rw [← h1, ← h2]
              exact ⟨timeParse_of_matchTS _ t1 r2 hm1,
                timeParse_of_matchTS _ t2 _ hm2⟩
          · cases h
      · cases h
  · cases h

theorem mSeOnly_times_parse (line s e txt : Str)
    (h : mSeOnly line = some (s, e, txt)) :
    (∃ v, timeStrToSeconds s = some v) ∧ ∃ v, timeStrToSeconds e = some v := by
  unfold mSeOnly at h
  split at h
  · split at h
    · cases h
    · next t1 r2 hm1 =>
      split at h
      · next r4 =>
        split at h
        · cases h
        · next t2 r6 hm2 =>
          split at h
          · next r7 =>
            injection h with h'
            simp only [Prod.mk.injEq] at h'
            obtain ⟨h1, h2, _⟩ := h'
            rw [← h1, ← h2]
            exact ⟨timeParse_of_matchTS _ t1 r2 hm1,
              timeParse_of_matchTS _ t2 _ hm2⟩
          · cases h
      · cases h
  · cases h

theorem mSSpk_time_parses (line s spk txt : Str)
    (h : mSSpk line = some (s, spk, txt)) :
    ∃ v, timeStrToSeconds s = some v := by
  unfold mSSpk at h
  split at h
  · split at h
    · cases h
    · next t1 r2 hm1 =>
      split at h
      · next r3 =>
        rcases hsp : speakerSplit r3 with _ | p
        · rw [hsp] at h; cases h
        · rw [hsp] at h
          injection h with h'
          simp only [Prod.mk.injEq] at h'
          obtain ⟨h1, _, _⟩ := h'
          rw [← h1]
          exact timeParse_of_matchTS _ t1 _ hm1
      · cases h
  · cases h

theorem mSOnly_time_parses (line s txt : Str)
    (h : mSOnly line = some (s, txt)) :
    ∃ v, timeStrToSeconds s = some v := by
  unfold mSOnly at h
  split at h
  · split at h
    · cases h
    · next t1 r2 hm1 =>
      split at h
      · next r3 =>
        injection h with h'
        simp only [Prod.mk.injEq] at h'
        obtain ⟨h1, _⟩ := h'
        rw [← h1]
        exact timeParse_of_matchTS _ t1 _ hm1
      · cases h
  · cases h

/-- Claim C7: the `elif` chain with its time-parse gates computes
exactly the fall-through semantics the spec describes, because a
bracketed time that matches a pattern's shape always parses — a
timestamp pattern counts as matched only together with a successful
time-parse, and the failure branch that would swallow the line without
trying later patterns is unreachable. -/
theorem C7_elif_equals_fallthrough (line : Str) :
    parseLineFields line = parseLineFieldsSpec line := by
  rw [parseLineFields, parseLineFieldsSpec]
  cases h1 : mSeSpk line with
  | some v =>
    obtain ⟨s, e, spk, txt⟩ := v
    obtain ⟨⟨ps, hps⟩, pe, hpe⟩ := mSeSpk_times_parse line s e spk txt h1
    simp only [hps, hpe]
  | none =>
    rw [parseLineFieldsSpec.parseLineFieldsSpecSeOnly]
    cases h2 : mSeOnly line with
    | some v =>
      obtain ⟨s, e, txt⟩ := v
      obtain ⟨⟨ps, hps⟩, pe, hpe⟩ := mSeOnly_times_parse line s e txt h2
      simp only [hps, hpe]
    | none =>
      rw [parseLineFieldsSpec.parseLineFieldsSpecSSpk]
      cases h3 : mSSpk line with
      | some v =>
        obtain ⟨s, spk, txt⟩ := v
        obtain ⟨ps, hps⟩ := mSSpk_time_parses line s spk txt h3
        simp only [hps]
      | none =>
        rw [parseLineFieldsSpec.parseLineFieldsSpecSOnly]
        cases h4 : mSOnly line with
        | some v =>
          obtain ⟨s, txt⟩ := v
          obtain ⟨ps, hps⟩ := mSOnly_time_parses line s txt h4
          simp only [hps]
        | none =>
          rw [parseLineFieldsSpec.parseLineFieldsSpecSpkOnly]

/-! ### Round-trip machinery for the persisted line grammar (claim C1) -/

